import Mathlib

/-!
Verification of the Column Parity Mixer (CPM) module `cypm.py`.

The module acts on GF(2) matrices; we embed GF(2) as `ZMod 2` and matrices as
Mathlib matrices, the library the source delegates its field/matrix arithmetic
to (Sage's matrix type over `GF(2)`).  A CPM stores a row count `m ≥ 1` (the
constructor rejects `m < 1`) and a square `n × n` folding matrix `Z`; `n` is
carried as a type index so the dimensions of `Z` are those the constructor
checked.
-/

namespace CyPM

/-- The CPM entity: `self._nrows = m`, `self._ncols = n` (the type index) and
`self._Z = Z`, as stored by `CPM.__init__`. -/
structure CPM (n : ℕ) where
  m : ℕ
  hm : 1 ≤ m
  Z : Matrix (Fin n) (Fin n) (ZMod 2)

/-- Error kinds of the module, named per the spec's error table; the source
raises `ValueError` / `TypeError` with distinct messages at the same sites. -/
inductive Err where
  | InvalidDimension
  | InvalidField
  | NotSquare
  | DimensionMismatch
  | NotInvertible
  | InvalidExponent
  | ConversionError
  deriving DecidableEq

instance exceptDecEq {e a : Type} [DecidableEq e] [DecidableEq a] : DecidableEq (Except e a) :=
  fun x y =>
    match x, y with
    | .ok u, .ok v => decidable_of_iff (u = v) (by simp)
    | .error u, .error v => decidable_of_iff (u = v) (by simp)
    | .ok _, .error _ => isFalse (by simp)
    | .error _, .ok _ => isFalse (by simp)

/-- Source `CPM.column_parity(A)`: the sum of all rows of `A` (entry `j` is the
XOR of column `j`). -/
def column_parity {r n : ℕ} (A : Matrix (Fin r) (Fin n) (ZMod 2)) : Fin n → ZMod 2 :=
  fun j => ∑ i, A i j

/-- Source `CPM.expanded_column_parity(A)`: the parity row repeated `A.nrows()` times. -/
def expanded_column_parity {r n : ℕ} (A : Matrix (Fin r) (Fin n) (ZMod 2)) :
    Matrix (Fin r) (Fin n) (ZMod 2) :=
  Matrix.of fun _ j => column_parity A j

/-- Source `CPM.odd_columns(A)`: `column_parity(A).nonzero_positions()`, the ascending
list of indices whose parity entry is nonzero. -/
def odd_columns {r n : ℕ} (A : Matrix (Fin r) (Fin n) (ZMod 2)) : List (Fin n) :=
  (List.finRange n).filter fun j => decide (column_parity A j ≠ 0)

/-- Source `CPM.even_columns(A)`: the indices of `range(A.ncols())` not in
`odd_columns(A)`. -/
def even_columns {r n : ℕ} (A : Matrix (Fin r) (Fin n) (ZMod 2)) : List (Fin n) :=
  (List.finRange n).filter fun j => decide (j ∉ odd_columns A)

/-- Source `CPM.effect(A) = column_parity(A) * Z` (row vector times matrix). -/
def effect {r n : ℕ} (θ : CPM n) (A : Matrix (Fin r) (Fin n) (ZMod 2)) : Fin n → ZMod 2 :=
  Matrix.vecMul (column_parity A) θ.Z

/-- Source `CPM.expanded_effect(A) = expanded_column_parity(A) * Z`. -/
def expanded_effect {r n : ℕ} (θ : CPM n) (A : Matrix (Fin r) (Fin n) (ZMod 2)) :
    Matrix (Fin r) (Fin n) (ZMod 2) :=
  expanded_column_parity A * θ.Z

/-- Source `CPM.__call__(A) = A + self.expanded_effect(A)`. -/
def call {r n : ℕ} (θ : CPM n) (A : Matrix (Fin r) (Fin n) (ZMod 2)) :
    Matrix (Fin r) (Fin n) (ZMod 2) :=
  A + expanded_effect θ A

/-- The dimension-checked body of `CPM.compose`: for even `m` the folding
matrices are added, for odd `m` they are composed through the associated-matrix
representation `Z = (Z1 + I) * (Z2 + I) + I`. -/
def composeZ {n : ℕ} (θ θ' : CPM n) : CPM n :=
  if Even θ.m then ⟨θ.m, θ.hm, θ.Z + θ'.Z⟩
  else ⟨θ.m, θ.hm, (θ.Z + 1) * (θ'.Z + 1) + 1⟩

/-- Source `CPM.compose(other)`: raises on mismatched dimensions, else builds the
composed CPM.  Both arguments share the type index `n`, the column count the
constructor derived from `Z`; the row counts are compared here as in the
source (`self.nrows() != other.nrows()`). -/
def compose {n : ℕ} (θ θ' : CPM n) : Except Err (CPM n) :=
  if θ.m = θ'.m then .ok (composeZ θ θ') else .error .DimensionMismatch

/-- Source `CPM.associated_matrix() = Z + identity_matrix(GF(2), n)`. -/
def associated_matrix {n : ℕ} (θ : CPM n) : Matrix (Fin n) (Fin n) (ZMod 2) :=
  θ.Z + 1

/-- Bounded search for the least exponent `k0` with `k ≤ k0 < k + fuel` and
`M ^ k0 = 1`; models Sage's `multiplicative_order` search. -/
def findPow {n : ℕ} (M : Matrix (Fin n) (Fin n) (ZMod 2)) : ℕ → ℕ → Option ℕ
  | _, 0 => none
  | k, fuel + 1 => if M ^ k = 1 then some k else findPow M (k + 1) fuel

/-- Source `multiplicative_order` of a GF(2) matrix, as supplied by the matrix
library: the least `k ≥ 1` with `M ^ k = 1`.  The search is bounded by
`2 ^ (n * n)`, the number of `n × n` GF(2) matrices, which bounds the order of
every invertible matrix; on matrices of infinite order (where Sage raises)
the result defaults to `0`. -/
def multiplicative_order {n : ℕ} (M : Matrix (Fin n) (Fin n) (ZMod 2)) : ℕ :=
  (findPow M 1 (2 ^ (n * n))).getD 0

/-- Source `CPM.order()`: `2` for even `m`, else the multiplicative order of the
associated matrix. -/
def order {n : ℕ} (θ : CPM n) : ℕ :=
  if Even θ.m then 2 else multiplicative_order (associated_matrix θ)

/-- Source `CPM.is_invertible()`: `is_even(m) or not self.associated_matrix().is_singular()`;
a square matrix over a field is singular exactly when its determinant is zero. -/
def is_invertible {n : ℕ} (θ : CPM n) : Bool :=
  decide (Even θ.m) || decide ((associated_matrix θ).det ≠ 0)

/-- The matrix library's inverse of a GF(2) matrix (Sage `M.inverse()`),
computed by the adjugate formula `M⁻¹ = (det M)⁻¹ • adjugate M`; over GF(2)
every element is its own inverse (`zmod2_inv_self` below), so the scalar
`(det M)⁻¹` is written `det M`.  `matInv_eq` proves this equal to Mathlib's
matrix inverse. -/
def matInv {n : ℕ} (M : Matrix (Fin n) (Fin n) (ZMod 2)) : Matrix (Fin n) (Fin n) (ZMod 2) :=
  M.det • M.adjugate

/-- Source `CPM.inverse()`: raises `NotInvertible` when not invertible; returns `self`
for even `m`; for odd `m` returns the CPM with folding matrix
`associated_matrix().inverse() - I`. -/
def inverse {n : ℕ} (θ : CPM n) : Except Err (CPM n) :=
  if is_invertible θ then
    if Even θ.m then .ok θ
    else .ok ⟨θ.m, θ.hm, matInv (associated_matrix θ) - 1⟩
  else .error .NotInvertible

/-- Sage equality of two GF(2) matrices of possibly different sizes: matrices
with different dimensions compare unequal (no error); same-size matrices
compare entrywise. -/
def matEq {n n' : ℕ} (M : Matrix (Fin n) (Fin n) (ZMod 2))
    (M' : Matrix (Fin n') (Fin n') (ZMod 2)) : Bool :=
  if h : n = n' then decide (Matrix.reindex (finCongr h) (finCongr h) M = M') else false

/-- Source `CPM.is_equal(other)`: `self.nrows() == other.nrows() and self._Z == other._Z`.
`CPM.__eq__` delegates to this.  The column counts may differ, in which case the
matrix comparison yields `false`. -/
def is_equal {n n' : ℕ} (θ : CPM n) (θ' : CPM n') : Bool :=
  decide (θ.m = θ'.m) && matEq θ.Z θ'.Z

/-- Source `CPM.is_identity()`: the folding matrix is zero. -/
def is_identity {n : ℕ} (θ : CPM n) : Bool :=
  decide (θ.Z = (0 : Matrix (Fin n) (Fin n) (ZMod 2)))

/-- The loop of `CPM.__pow__`: `powerAux θ k` is the CPM after the fresh copy
`CPM(m, Z)` has been composed with `self` a further `k` times, so it models
`theta ** (k+1)`.  The composition inside the loop is between CPMs of equal
dimensions, so `compose` cannot raise there. -/
def powerAux {n : ℕ} (θ : CPM n) : ℕ → CPM n
  | 0 => ⟨θ.m, θ.hm, θ.Z⟩
  | k + 1 => composeZ (powerAux θ k) θ

/-- Source `CPM.__pow__(e)`: raises `InvalidExponent` for `e < 1`, else composes the
copy of `self` with `self` a further `e - 1` times. -/
def power {n : ℕ} (θ : CPM n) (e : ℕ) : Except Err (CPM n) :=
  if e < 1 then .error .InvalidExponent else .ok (powerAux θ (e - 1))

/-- Input to the constructor: either a row-major nested integer array
(`list` / `tuple` in the source) or an already-built Sage matrix, recorded
with the characteristic of its base ring (`2` meaning `GF(2)`). -/
inductive ZArg where
  | arr (rows : List (List Int)) : ZArg
  | mat (rchar : ℕ) (rows : List (List Int)) : ZArg

/-- Whether a nested array is rectangular, so that `Matrix(GF(2), rows)`
succeeds. -/
def rectangular (rows : List (List Int)) : Bool :=
  rows.all fun row => row.length = (rows.headD []).length

/-- Source `CPM.__init__(m, Z)`, modelling the stored data as `(m, entries of Z)`.
A nested array is converted by `Matrix(GF(2), Z)`, which coerces every integer
entry through the ring map `ZZ → GF(2)` (reduction mod 2) and fails only on a
ragged array; the resulting matrix is over `GF(2)`, so the base-ring check
passes.  A matrix argument keeps its base ring, and the check
`Z.base_ring() != GF(2)` raises exactly when that ring is not `GF(2)`.
Then `Z.is_square()` is checked.  The source tests `m < 1` before inspecting
`Z`; here that first test is repeated at the head of both input shapes. -/
def CPM_init (m : Int) : ZArg → Except Err (Int × List (List (ZMod 2)))
  | .arr rows =>
      if m < 1 then .error .InvalidDimension
      else if rectangular rows then
        if rows.length = (rows.headD []).length then
          .ok (m, rows.map fun row => row.map fun x => ((x : ZMod 2)))
        else .error .NotSquare
      else .error .ConversionError
  | .mat rchar rows =>
      if m < 1 then .error .InvalidDimension
      else if rchar = 2 then
        if rows.length = (rows.headD []).length then
          .ok (m, rows.map fun row => row.map fun x => ((x : ZMod 2)))
        else .error .NotSquare
      else .error .InvalidField

/-! ### Helper lemmas: characteristic-2 facts and entrywise descriptions -/

theorem zmod2_add_self (x : ZMod 2) : x + x = 0 := by
  revert x; decide

theorem zmod2_inv_self (x : ZMod 2) : x⁻¹ = x := by
  fin_cases x
  · exact inv_zero
  · exact inv_one

theorem matInv_eq {n : ℕ} (M : Matrix (Fin n) (Fin n) (ZMod 2)) : matInv M = M⁻¹ := by
  rw [Matrix.inv_def, Ring.inverse_eq_inv, zmod2_inv_self, matInv]

theorem mat_add_self {r n : ℕ} (M : Matrix (Fin r) (Fin n) (ZMod 2)) : M + M = 0 := by
  ext i j
  rw [Matrix.add_apply, zmod2_add_self, Matrix.zero_apply]

theorem mat_two_eq_zero (n : ℕ) : (1 + 1 : Matrix (Fin n) (Fin n) (ZMod 2)) = 0 :=
  mat_add_self 1

theorem vecMul_apply {r n : ℕ} (v : Fin r → ZMod 2) (M : Matrix (Fin r) (Fin n) (ZMod 2))
    (j : Fin n) : Matrix.vecMul v M j = ∑ k, v k * M k j :=
  rfl

theorem call_apply {r n : ℕ} (θ : CPM n) (A : Matrix (Fin r) (Fin n) (ZMod 2))
    (i : Fin r) (j : Fin n) : call θ A i j = A i j + effect θ A j := by
  simp [call, expanded_effect, expanded_column_parity, effect, Matrix.add_apply,
    Matrix.mul_apply, vecMul_apply, column_parity]

theorem column_parity_call {r n : ℕ} (θ : CPM n) (A : Matrix (Fin r) (Fin n) (ZMod 2))
    (j : Fin n) :
    column_parity (call θ A) j = column_parity A j + (r : ZMod 2) * effect θ A j := by
  simp only [column_parity, call_apply]
  rw [Finset.sum_add_distrib, ← column_parity, Finset.sum_const, Finset.card_univ,
    Fintype.card_fin, nsmul_eq_mul]

theorem composeZ_m {n : ℕ} (θ θ' : CPM n) : (composeZ θ θ').m = θ.m := by
  rw [composeZ]
  by_cases h : Even θ.m
  · rw [if_pos h]
  · rw [if_neg h]

theorem composeZ_Z_even {n : ℕ} (θ θ' : CPM n) (h : Even θ.m) :
    (composeZ θ θ').Z = θ.Z + θ'.Z := by
  rw [composeZ, if_pos h]

theorem composeZ_Z_odd {n : ℕ} (θ θ' : CPM n) (h : ¬ Even θ.m) :
    (composeZ θ θ').Z = θ.Z * θ'.Z + (θ.Z + θ'.Z) := by
  rw [composeZ, if_neg h]
  show (θ.Z + 1) * (θ'.Z + 1) + 1 = _
  have h1 : (θ.Z + 1) * (θ'.Z + 1) + 1
      = θ.Z * θ'.Z + (θ.Z + θ'.Z) + (1 + 1) := by
    rw [add_mul, one_mul, mul_add, mul_one]
    abel
  rw [h1, mat_two_eq_zero, add_zero]

theorem natCast_zmod2_even {r : ℕ} (h : r % 2 = 0) : ((r : ℕ) : ZMod 2) = 0 := by
  rw [ZMod.natCast_zmod_eq_zero_iff_dvd]
  omega

theorem natCast_zmod2_odd {r : ℕ} (h : r % 2 = 1) : ((r : ℕ) : ZMod 2) = 1 := by
  have h2 : r = 2 * (r / 2) + 1 := by omega
  rw [h2]
  push_cast
  rw [(by decide : (2 : ZMod 2) = 0), zero_mul, zero_add]

/-! ### Claim C1: composition versus sequential application -/

/-- Concrete even-row CPM on one column with folding matrix `[[1]]`. -/
def cexTheta : CPM 1 := ⟨2, by decide, 1⟩

/-- A one-row state matrix `[[1]]`: its row count has a different parity than
`cexTheta.m = 2`. -/
def cexA : Matrix (Fin 1) (Fin 1) (ZMod 2) := 1

/-- A two-row state matrix, matching the parity of `cexTheta.m`. -/
def cexA2 : Matrix (Fin 2) (Fin 1) (ZMod 2) := Matrix.of ![![1], ![0]]

/-- C1 (amended): for CPMs of equal `(m, n)` and every state matrix `A` with
`n` columns whose row count `r` has the same parity as `m`,
`θ.compose(θ').apply(A) = θ'.apply(θ.apply(A))`. -/
theorem compose_call_eq {n r : ℕ} (θ θ' : CPM n) (hmeq : θ.m = θ'.m)
    (hr : r % 2 = θ.m % 2) (A : Matrix (Fin r) (Fin n) (ZMod 2)) :
    Except.map (fun α => call α A) (compose θ θ') = .ok (call θ' (call θ A)) := by
  rw [compose, if_pos hmeq]
  show Except.ok (call (composeZ θ θ') A) = _
  congr 1
  ext i j
  rw [call_apply, call_apply, call_apply]
  show A i j + Matrix.vecMul (column_parity A) (composeZ θ θ').Z j
      = A i j + Matrix.vecMul (column_parity A) θ.Z j
        + Matrix.vecMul (column_parity (call θ A)) θ'.Z j
  by_cases he : Even θ.m
  · have hre : r % 2 = 0 := hr.trans (Nat.even_iff.mp he)
    have hq : column_parity (call θ A) = column_parity A := by
      funext k
      rw [column_parity_call, natCast_zmod2_even hre, zero_mul, add_zero]
    rw [composeZ_Z_even θ θ' he, Matrix.vecMul_add, hq]
    simp only [Pi.add_apply]
    ring
  · have hro : r % 2 = 1 := hr.trans (Nat.not_even_iff.mp he)
    have hq : column_parity (call θ A) = column_parity A + effect θ A := by
      funext k
      rw [Pi.add_apply, column_parity_call, natCast_zmod2_odd hro, one_mul]
    rw [composeZ_Z_odd θ θ' he, Matrix.vecMul_add, Matrix.vecMul_add, hq,
      Matrix.add_vecMul, effect, Matrix.vecMul_vecMul]
    simp only [Pi.add_apply]
    ring

/-- C1 witness: the amended statement evaluated on `cexTheta` and a two-row
state. -/
theorem compose_call_eq_witness :
    Except.map (fun α => call α cexA2) (compose cexTheta cexTheta)
      = .ok (call cexTheta (call cexTheta cexA2)) :=
  compose_call_eq cexTheta cexTheta rfl rfl cexA2

/-- C1 counterexample: with `m = 2`, `Z = [[1]]` and the one-row state
`A = [[1]]`, the composed CPM maps `A` to `[[1]]` while sequential application
gives `[[0]]`; the claim fails when the row count of `A` has a different
parity than `m`. -/
theorem compose_call_counterexample :
    Except.map (fun α => call α cexA) (compose cexTheta cexTheta)
      ≠ .ok (call cexTheta (call cexTheta cexA)) := by
  decide

/-! ### Claim C2: the evaluation formula -/

/-- C2: `apply(A)` is `A` plus (entrywise XOR) the matrix whose every row is
`column_parity(A) * Z`.  `call` is a pure function of `θ` and `A`, so `A`
itself is unchanged. -/
theorem call_formula {r n : ℕ} (θ : CPM n) (A : Matrix (Fin r) (Fin n) (ZMod 2))
    (hr : 0 < r) :
    call θ A = A + Matrix.of fun _ j => Matrix.vecMul (column_parity A) θ.Z j := by
  ext i j
  rw [call_apply, Matrix.add_apply, Matrix.of_apply]
  rfl

/-- C2 witness: the formula evaluated on the concrete `cexTheta`, `cexA2`. -/
theorem call_formula_witness :
    call cexTheta cexA2
      = cexA2 + Matrix.of fun _ j => Matrix.vecMul (column_parity cexA2) cexTheta.Z j :=
  call_formula cexTheta cexA2 (by decide)

/-! ### Claim C5: odd and even columns partition the index range -/

theorem mem_odd_columns {r n : ℕ} (A : Matrix (Fin r) (Fin n) (ZMod 2)) (j : Fin n) :
    j ∈ odd_columns A ↔ column_parity A j ≠ 0 := by
  simp [odd_columns, List.mem_filter, List.mem_finRange]

theorem mem_even_columns {r n : ℕ} (A : Matrix (Fin r) (Fin n) (ZMod 2)) (j : Fin n) :
    j ∈ even_columns A ↔ j ∉ odd_columns A := by
  simp [even_columns, List.mem_filter, List.mem_finRange]

/-- C5: for a matrix with at least one row, `odd_columns` and `even_columns`
partition the column index range exactly — each index lies in exactly one of
the two lists — and both lists are strictly ascending. -/
theorem odd_even_partition {r n : ℕ} (A : Matrix (Fin r) (Fin n) (ZMod 2)) (hr : 0 < r) :
    (∀ j : Fin n,
        (j ∈ odd_columns A ∧ j ∉ even_columns A)
          ∨ (j ∉ odd_columns A ∧ j ∈ even_columns A))
      ∧ List.Pairwise (fun a b => a < b) (odd_columns A)
      ∧ List.Pairwise (fun a b => a < b) (even_columns A) := by
  refine ⟨fun j => ?_, ?_, ?_⟩
  · by_cases h : j ∈ odd_columns A
    · exact Or.inl ⟨h, fun hc => ((mem_even_columns A j).mp hc) h⟩
    · exact Or.inr ⟨h, (mem_even_columns A j).mpr h⟩
  · exact (List.pairwise_lt_finRange n).filter _
  · exact (List.pairwise_lt_finRange n).filter _

/-- C5 witness: the partition statement evaluated at the concrete state
`cexA2`, instantiated at column index `0`. -/
theorem odd_even_partition_witness :
    ((0 : Fin 1) ∈ odd_columns cexA2 ∧ (0 : Fin 1) ∉ even_columns cexA2)
      ∨ ((0 : Fin 1) ∉ odd_columns cexA2 ∧ (0 : Fin 1) ∈ even_columns cexA2) :=
  (odd_even_partition cexA2 (by decide)).1 0

/-! ### Claim C9: comparison of CPMs with mismatched dimensions -/

/-- An odd-row CPM on two columns, used to exhibit a `(m, n)` mismatch. -/
def cexTheta3 : CPM 2 := ⟨3, by decide, 1⟩

/-- An odd-row CPM on one column (row count differs from `cexTheta`). -/
def cexTheta5 : CPM 1 := ⟨3, by decide, 1⟩

/-- C9 (amended): `is_equal` (and hence `__eq__`, which delegates to it) on
CPMs of different `m` or different `n` returns the boolean `false`; it does
not fail. -/
theorem is_equal_mismatch {n n' : ℕ} (θ : CPM n) (θ' : CPM n')
    (h : θ.m ≠ θ'.m ∨ n ≠ n') : is_equal θ θ' = false := by
  rw [is_equal]
  rcases h with h | h
  · rw [decide_eq_false h, Bool.false_and]
  · rw [matEq, dif_neg h, Bool.and_false]

/-- C9 witness: two CPMs with equal `n` and different `m` compare as `false`. -/
theorem is_equal_mismatch_witness : is_equal cexTheta cexTheta5 = false :=
  is_equal_mismatch cexTheta cexTheta5 (Or.inl (by decide))

/-- C9 counterexample: `cexTheta` (`m = 2`, `n = 1`) and `cexTheta3` (`m = 3`,
`n = 2`) differ in both dimensions, yet `is_equal` evaluates to the boolean
`false` — comparison is a total function and raises no `DimensionMismatch`. -/
theorem is_equal_counterexample :
    cexTheta.m ≠ cexTheta3.m ∧ (1 : ℕ) ≠ 2 ∧ is_equal cexTheta cexTheta3 = false := by
  decide

/-! ### Claim C10: even-row composition is commutative -/

/-- An even-row identity CPM on one column. -/
def cexTheta4 : CPM 1 := ⟨2, by decide, 0⟩

/-- C10: for even `m` and matching dimensions, `θ.compose(θ')` has folding
matrix `θ.Z + θ'.Z` and is structurally equal to `θ'.compose(θ)`. -/
theorem compose_even_comm {n : ℕ} (θ θ' : CPM n) (he : Even θ.m) (hmeq : θ.m = θ'.m) :
    Except.map (fun a => a.Z) (compose θ θ') = .ok (θ.Z + θ'.Z)
      ∧ (compose θ θ').bind
          (fun a => Except.map (fun b => is_equal a b) (compose θ' θ)) = .ok true := by
  have he' : Even θ'.m := hmeq ▸ he
  have h1 : compose θ θ' = .ok (composeZ θ θ') := by rw [compose, if_pos hmeq]
  have h2 : compose θ' θ = .ok (composeZ θ' θ) := by rw [compose, if_pos hmeq.symm]
  constructor
  · rw [h1]
    show Except.ok (composeZ θ θ').Z = _
    rw [composeZ_Z_even θ θ' he]
  · rw [h1]
    show Except.map (fun b => is_equal (composeZ θ θ') b) (compose θ' θ) = .ok true
    rw [h2]
    show Except.ok (is_equal (composeZ θ θ') (composeZ θ' θ)) = .ok true
    congr 1
    simp [is_equal, matEq, composeZ_m, hmeq, composeZ_Z_even θ θ' he,
      composeZ_Z_even θ' θ he', add_comm]

/-- C10 witness: commutativity evaluated on the concrete even CPMs `cexTheta`
and `cexTheta4`. -/
theorem compose_even_comm_witness :
    Except.map (fun a => a.Z) (compose cexTheta cexTheta4) = .ok (cexTheta.Z + cexTheta4.Z)
      ∧ (compose cexTheta cexTheta4).bind
          (fun a => Except.map (fun b => is_equal a b) (compose cexTheta4 cexTheta)) = .ok true :=
  compose_even_comm cexTheta cexTheta4 (by decide) rfl

/-! ### Claims C3 and C4: inversion -/

theorem composeZ_Z_odd_raw {n : ℕ} (θ θ' : CPM n) (h : ¬ Even θ.m) :
    (composeZ θ θ').Z = (θ.Z + 1) * (θ'.Z + 1) + 1 := by
  rw [composeZ, if_neg h]

theorem is_invertible_iff {n : ℕ} (θ : CPM n) :
    is_invertible θ = true ↔ (Even θ.m ∨ (associated_matrix θ).det ≠ 0) := by
  simp [is_invertible]

theorem mul_matInv {n : ℕ} (M : Matrix (Fin n) (Fin n) (ZMod 2)) (h : M.det ≠ 0) :
    M * matInv M = 1 := by
  rw [matInv_eq]
  exact Matrix.mul_nonsing_inv M (isUnit_iff_ne_zero.mpr h)

theorem matEq_refl {n : ℕ} (M : Matrix (Fin n) (Fin n) (ZMod 2)) : matEq M M = true := by
  rw [matEq, dif_pos rfl]
  simp

/-- An odd-row invertible CPM on two columns: `m = 3`,
`Z = [[1,1],[1,0]]`, whose associated matrix `[[0,1],[1,1]]` has order 3. -/
def cexTheta7 : CPM 2 := ⟨3, by decide, !![1,1;1,0]⟩

/-- C3: for every invertible CPM `θ`, composing `θ` with `θ.inverse()` gives a
CPM whose `is_identity()` is `true`. -/
theorem compose_inverse_identity {n : ℕ} (θ : CPM n) (h : is_invertible θ = true) :
    (inverse θ).bind (fun θi => Except.map is_identity (compose θ θi)) = .ok true := by
  by_cases he : Even θ.m
  · have h1 : inverse θ = .ok θ := by rw [inverse, if_pos h, if_pos he]
    rw [h1]
    show Except.map is_identity (compose θ θ) = .ok true
    rw [compose, if_pos rfl]
    show Except.ok (is_identity (composeZ θ θ)) = _
    congr 1
    simp [is_identity, composeZ_Z_even θ θ he, mat_add_self]
  · have hdet : (associated_matrix θ).det ≠ 0 := by
      rcases (is_invertible_iff θ).mp h with hc | hc
      · exact absurd hc he
      · exact hc
    have h1 : inverse θ = .ok ⟨θ.m, θ.hm, matInv (associated_matrix θ) - 1⟩ := by
      rw [inverse, if_pos h, if_neg he]
    rw [h1]
    show Except.map is_identity (compose θ ⟨θ.m, θ.hm, matInv (associated_matrix θ) - 1⟩)
        = .ok true
    rw [compose, if_pos rfl]
    show Except.ok (is_identity (composeZ θ ⟨θ.m, θ.hm, matInv (associated_matrix θ) - 1⟩)) = _
    congr 1
    have hz : (composeZ θ (⟨θ.m, θ.hm, matInv (associated_matrix θ) - 1⟩ : CPM n)).Z = 0 := by
      rw [composeZ_Z_odd_raw θ _ he]
      show (θ.Z + 1) * (matInv (associated_matrix θ) - 1 + 1) + 1 = 0
      rw [sub_add_cancel]
      show associated_matrix θ * matInv (associated_matrix θ) + 1 = 0
      rw [mul_matInv _ hdet]
      exact mat_two_eq_zero n
    simp [is_identity, hz]

/-- C3 witness: the identity test evaluated on the concrete invertible
odd-row CPM `cexTheta7`. -/
theorem compose_inverse_identity_witness :
    (inverse cexTheta7).bind (fun θi => Except.map is_identity (compose cexTheta7 θi))
      = .ok true :=
  compose_inverse_identity cexTheta7 (by decide)

/-- C4: for every invertible CPM `θ`, `θ.inverse().inverse()` succeeds and is
structurally equal to `θ` (same `m`, same folding matrix). -/
theorem inverse_inverse {n : ℕ} (θ : CPM n) (h : is_invertible θ = true) :
    Except.map (fun θ2 => is_equal θ2 θ) ((inverse θ).bind inverse) = .ok true := by
  by_cases he : Even θ.m
  · have h1 : inverse θ = .ok θ := by rw [inverse, if_pos h, if_pos he]
    rw [h1]
    show Except.map (fun θ2 => is_equal θ2 θ) (inverse θ) = .ok true
    rw [h1]
    show Except.ok (is_equal θ θ) = _
    congr 1
    simp [is_equal, matEq_refl]
  · have hdet : (associated_matrix θ).det ≠ 0 := by
      rcases (is_invertible_iff θ).mp h with hc | hc
      · exact absurd hc he
      · exact hc
    have hA : IsUnit (associated_matrix θ).det := isUnit_iff_ne_zero.mpr hdet
    have h1 : inverse θ = .ok ⟨θ.m, θ.hm, matInv (associated_matrix θ) - 1⟩ := by
      rw [inverse, if_pos h, if_neg he]
    have hassoc1 : associated_matrix (⟨θ.m, θ.hm, matInv (associated_matrix θ) - 1⟩ : CPM n)
        = (associated_matrix θ)⁻¹ := by
      show matInv (associated_matrix θ) - 1 + 1 = _
      rw [sub_add_cancel, matInv_eq]
    have hdet1 :
        (associated_matrix (⟨θ.m, θ.hm, matInv (associated_matrix θ) - 1⟩ : CPM n)).det ≠ 0 := by
      rw [hassoc1, Matrix.det_nonsing_inv, Ring.inverse_eq_inv]
      exact inv_ne_zero hdet
    have hinv1 : is_invertible (⟨θ.m, θ.hm, matInv (associated_matrix θ) - 1⟩ : CPM n) = true :=
      (is_invertible_iff _).mpr (Or.inr hdet1)
    have h2 : inverse (⟨θ.m, θ.hm, matInv (associated_matrix θ) - 1⟩ : CPM n)
        = .ok ⟨θ.m, θ.hm,
            matInv (associated_matrix (⟨θ.m, θ.hm, matInv (associated_matrix θ) - 1⟩ : CPM n))
              - 1⟩ := by
      rw [inverse, if_pos hinv1, if_neg he]
    have hZ2 :
        matInv (associated_matrix (⟨θ.m, θ.hm, matInv (associated_matrix θ) - 1⟩ : CPM n)) - 1
          = θ.Z := by
      rw [hassoc1, matInv_eq, Matrix.nonsing_inv_nonsing_inv _ hA]
      show θ.Z + 1 - 1 = θ.Z
      rw [add_sub_cancel_right]
    rw [h1]
    show Except.map (fun θ2 => is_equal θ2 θ)
        (inverse ⟨θ.m, θ.hm, matInv (associated_matrix θ) - 1⟩) = .ok true
    rw [h2]
    show Except.ok (is_equal
        (⟨θ.m, θ.hm,
          matInv (associated_matrix (⟨θ.m, θ.hm, matInv (associated_matrix θ) - 1⟩ : CPM n))
            - 1⟩ : CPM n) θ) = _
    congr 1
    simp [is_equal, hZ2, matEq_refl]

/-- C4 witness: the double-inverse round trip evaluated on `cexTheta7`. -/
theorem inverse_inverse_witness :
    Except.map (fun θ2 => is_equal θ2 cexTheta7) ((inverse cexTheta7).bind inverse)
      = .ok true :=
  inverse_inverse cexTheta7 (by decide)

/-! ### Claims C6 and C7: multiplicative order and powers -/

theorem findPow_some {n : ℕ} (M : Matrix (Fin n) (Fin n) (ZMod 2)) :
    ∀ fuel k j, findPow M k fuel = some j →
      M ^ j = 1 ∧ k ≤ j ∧ j < k + fuel ∧ ∀ i, k ≤ i → i < j → M ^ i ≠ 1 := by
  intro fuel
  induction fuel with
  | zero => intro k j h; exact absurd h (by rw [findPow]; exact Option.noConfusion)
  | succ fuel ih =>
    intro k j h
    rw [findPow] at h
    by_cases hk : M ^ k = 1
    · rw [if_pos hk] at h
      cases h
      exact ⟨hk, le_refl k, by omega, fun i h1 h2 => by omega⟩
    · rw [if_neg hk] at h
      obtain ⟨hj1, hj2, hj3, hj4⟩ := ih (k + 1) j h
      refine ⟨hj1, by omega, by omega, fun i h1 h2 => ?_⟩
      by_cases hik : i = k
      · rw [hik]; exact hk
      · exact hj4 i (by omega) h2

theorem findPow_none {n : ℕ} (M : Matrix (Fin n) (Fin n) (ZMod 2)) :
    ∀ fuel k, findPow M k fuel = none → ∀ j, k ≤ j → j < k + fuel → M ^ j ≠ 1 := by
  intro fuel
  induction fuel with
  | zero => intro k _ j h1 h2; omega
  | succ fuel ih =>
    intro k h j h1 h2
    rw [findPow] at h
    by_cases hk : M ^ k = 1
    · rw [if_pos hk] at h; exact Option.noConfusion h
    · rw [if_neg hk] at h
      by_cases hjk : j = k
      · rw [hjk]; exact hk
      · exact ih (k + 1) h j (by omega) (by omega)

theorem card_matrix_zmod2 (n : ℕ) :
    Fintype.card (Matrix (Fin n) (Fin n) (ZMod 2)) = 2 ^ (n * n) := by
  have h1 : Fintype.card (Matrix (Fin n) (Fin n) (ZMod 2))
      = Fintype.card (Fin n → Fin n → ZMod 2) := Fintype.card_congr (Equiv.refl _)
  rw [h1, Fintype.card_fun, Fintype.card_fun, ZMod.card, Fintype.card_fin, ← pow_mul]

theorem exists_pow_eq_one {n : ℕ} (M : Matrix (Fin n) (Fin n) (ZMod 2)) (h : M.det ≠ 0) :
    ∃ k, 1 ≤ k ∧ k ≤ 2 ^ (n * n) ∧ M ^ k = 1 := by
  have hu : IsUnit M := (Matrix.isUnit_iff_isUnit_det M).mpr (isUnit_iff_ne_zero.mpr h)
  obtain ⟨u, hu⟩ := hu
  refine ⟨Fintype.card (Matrix (Fin n) (Fin n) (ZMod 2))ˣ, Fintype.card_pos, ?_, ?_⟩
  · have hle : Fintype.card (Matrix (Fin n) (Fin n) (ZMod 2))ˣ
        ≤ Fintype.card (Matrix (Fin n) (Fin n) (ZMod 2)) :=
      Fintype.card_le_of_injective _ Units.ext
    rwa [card_matrix_zmod2] at hle
  · rw [← hu, ← Units.val_pow_eq_pow_val, pow_card_eq_one, Units.val_one]

theorem multiplicative_order_spec {n : ℕ} (M : Matrix (Fin n) (Fin n) (ZMod 2))
    (h : M.det ≠ 0) :
    0 < multiplicative_order M ∧ M ^ multiplicative_order M = 1
      ∧ ∀ k, 0 < k → k < multiplicative_order M → M ^ k ≠ 1 := by
  obtain ⟨k0, hk1, hk2, hk3⟩ := exists_pow_eq_one M h
  rw [multiplicative_order]
  cases hf : findPow M 1 (2 ^ (n * n)) with
  | none => exact absurd hk3 (findPow_none M _ 1 hf k0 hk1 (by omega))
  | some j =>
    obtain ⟨hj1, hj2, hj3, hj4⟩ := findPow_some M _ 1 j hf
    simp only [Option.getD_some]
    exact ⟨by omega, hj1, fun k hk hkj => hj4 k (by omega) hkj⟩

/-- C6: `order()` returns `2` for even `m`; for odd `m` with invertible
associated matrix it returns the multiplicative order of
`associated_matrix() = Z + I` — the least `k ≥ 1` with `(Z + I) ^ k = I`. -/
theorem order_correct {n : ℕ} (θ : CPM n) :
    (Even θ.m → order θ = 2)
      ∧ (¬ Even θ.m → (associated_matrix θ).det ≠ 0 →
          0 < order θ ∧ associated_matrix θ ^ order θ = 1
            ∧ ∀ k, 0 < k → k < order θ → associated_matrix θ ^ k ≠ 1) := by
  constructor
  · intro he
    rw [order, if_pos he]
  · intro ho hdet
    rw [order, if_neg ho]
    exact multiplicative_order_spec _ hdet

/-- C6 witness: evaluated on the even CPM `cexTheta` (order 2) and the odd
invertible CPM `cexTheta7`, whose associated matrix has order 3. -/
theorem order_correct_witness :
    order cexTheta = 2
      ∧ order cexTheta7 = 3
      ∧ associated_matrix cexTheta7 ^ order cexTheta7 = 1
      ∧ associated_matrix cexTheta7 ^ 2 ≠ 1 := by
  obtain ⟨h1, h2, h3⟩ := (order_correct cexTheta7).2 (by decide) (by decide)
  exact ⟨(order_correct cexTheta).1 (by decide), by decide, h2, h3 2 (by decide) (by decide)⟩

theorem powerAux_m {n : ℕ} (θ : CPM n) (k : ℕ) : (powerAux θ k).m = θ.m := by
  induction k with
  | zero => rfl
  | succ k ih =>
    show (composeZ (powerAux θ k) θ).m = θ.m
    rw [composeZ_m, ih]

theorem powerAux_Z_even {n : ℕ} (θ : CPM n) (he : Even θ.m) (k : ℕ) :
    (powerAux θ k).Z = if Even k then θ.Z else 0 := by
  induction k with
  | zero => rw [if_pos (even_zero)]; rfl
  | succ k ih =>
    have hm : Even (powerAux θ k).m := by rw [powerAux_m]; exact he
    show (composeZ (powerAux θ k) θ).Z = _
    rw [composeZ_Z_even _ _ hm, ih]
    by_cases hk : Even k
    · rw [if_pos hk, if_neg (by rw [Nat.even_add_one]; exact fun hc => hc hk)]
      exact mat_add_self θ.Z
    · rw [if_neg hk, if_pos (Nat.even_add_one.mpr hk), zero_add]

theorem powerAux_assoc_odd {n : ℕ} (θ : CPM n) (ho : ¬ Even θ.m) (k : ℕ) :
    (powerAux θ k).Z + 1 = (θ.Z + 1) ^ (k + 1) := by
  induction k with
  | zero => rw [pow_one]; rfl
  | succ k ih =>
    have hm : ¬ Even (powerAux θ k).m := by rw [powerAux_m]; exact ho
    show (composeZ (powerAux θ k) θ).Z + 1 = _
    rw [composeZ_Z_odd_raw _ _ hm, add_assoc, mat_two_eq_zero, add_zero, ih, ← pow_succ]

/-- C7 (amended): for every invertible CPM `θ`, `θ.power(θ.order())` is the
identity CPM; and unless `θ` is an even-row CPM that already is the identity
(`Z = 0`), `θ.power(k)` is not the identity for any `0 < k < θ.order()`. -/
theorem power_order_identity {n : ℕ} (θ : CPM n) (h : is_invertible θ = true) :
    Except.map is_identity (power θ (order θ)) = .ok true
      ∧ (¬ (Even θ.m ∧ θ.Z = 0) →
          ∀ k, 0 < k → k < order θ → Except.map is_identity (power θ k) = .ok false) := by
  by_cases he : Even θ.m
  · have hord : order θ = 2 := by rw [order, if_pos he]
    constructor
    · rw [hord, power, if_neg (by omega)]
      show Except.ok (is_identity (powerAux θ 1)) = _
      congr 1
      have hz : (powerAux θ 1).Z = 0 := by
        rw [powerAux_Z_even θ he 1, if_neg (by decide)]
      simp [is_identity, hz]
    · intro hni k hk1 hk2
      rw [hord] at hk2
      have hk : k = 1 := by omega
      have hzne : θ.Z ≠ 0 := fun hc => hni ⟨he, hc⟩
      rw [hk, power, if_neg (by omega)]
      show Except.ok (is_identity (powerAux θ 0)) = _
      congr 1
      show is_identity (⟨θ.m, θ.hm, θ.Z⟩ : CPM n) = false
      simp [is_identity, hzne]
  · have hdet : (associated_matrix θ).det ≠ 0 := by
      rcases (is_invertible_iff θ).mp h with hc | hc
      · exact absurd hc he
      · exact hc
    obtain ⟨ho1, ho2, ho3⟩ := multiplicative_order_spec (associated_matrix θ) hdet
    have hord : order θ = multiplicative_order (associated_matrix θ) := by
      rw [order, if_neg he]
    constructor
    · rw [hord, power, if_neg (by omega)]
      show Except.ok
          (is_identity (powerAux θ (multiplicative_order (associated_matrix θ) - 1))) = _
      congr 1
      have hassoc :
          (powerAux θ (multiplicative_order (associated_matrix θ) - 1)).Z + 1 = 1 := by
        rw [powerAux_assoc_odd θ he]
        have heq : multiplicative_order (associated_matrix θ) - 1 + 1
            = multiplicative_order (associated_matrix θ) := by omega
        rw [heq]
        exact ho2
      have hz : (powerAux θ (multiplicative_order (associated_matrix θ) - 1)).Z = 0 := by
        have h0 : (powerAux θ (multiplicative_order (associated_matrix θ) - 1)).Z + 1
            = 0 + 1 := by rw [hassoc, zero_add]
        exact add_right_cancel h0
      simp [is_identity, hz]
    · intro _ k hk1 hk2
      rw [hord] at hk2
      rw [power, if_neg (by omega)]
      show Except.ok (is_identity (powerAux θ (k - 1))) = _
      congr 1
      have hne : (powerAux θ (k - 1)).Z ≠ 0 := by
        intro hc
        have hp : (powerAux θ (k - 1)).Z + 1 = (θ.Z + 1) ^ (k - 1 + 1) :=
          powerAux_assoc_odd θ he (k - 1)
        rw [hc, zero_add] at hp
        have hk' : k - 1 + 1 = k := by omega
        rw [hk'] at hp
        exact ho3 k hk1 hk2 hp.symm
      simp [is_identity, hne]

/-- C7 witness: the amended statement evaluated on the odd invertible CPM
`cexTheta7` of order 3, at the intermediate exponent 2. -/
theorem power_order_identity_witness :
    Except.map is_identity (power cexTheta7 (order cexTheta7)) = .ok true
      ∧ Except.map is_identity (power cexTheta7 2) = .ok false := by
  obtain ⟨h1, h2⟩ := power_order_identity cexTheta7 (by decide)
  exact ⟨h1, h2 (by decide) 2 (by decide) (by decide)⟩

/-- C7 counterexample: the even-row identity CPM `cexTheta4` (`m = 2`,
`Z = 0`) is invertible with `order() = 2`, yet `power(1)` already is the
identity CPM — `order()` is not the smallest positive witness for it. -/
theorem power_order_counterexample :
    is_invertible cexTheta4 = true ∧ order cexTheta4 = 2 ∧ (0 : ℕ) < 1 ∧ 1 < 2
      ∧ Except.map is_identity (power cexTheta4 1) = .ok true := by
  decide

/-! ### Claim C8: construction and the InvalidField error -/

/-- C8 (amended): for `m ≥ 1`, construction from a nested integer array never
fails with `InvalidField` (the entries are coerced into GF(2), i.e. reduced
mod 2); construction from a matrix argument fails with `InvalidField` exactly
when the matrix's base ring is not GF(2) — regardless of whether its entries
are all 0 or 1. -/
theorem init_invalid_field (m : Int) (hm : 1 ≤ m) :
    (∀ rows : List (List Int), CPM_init m (.arr rows) ≠ .error .InvalidField)
      ∧ ∀ (rchar : ℕ) (rows : List (List Int)),
          (CPM_init m (.mat rchar rows) = .error .InvalidField ↔ rchar ≠ 2) := by
  have hml : ¬ m < 1 := by omega
  constructor
  · intro rows
    rw [CPM_init, if_neg hml]
    by_cases hrect : rectangular rows
    · rw [if_pos hrect]
      by_cases hsq : rows.length = (rows.headD []).length
      · rw [if_pos hsq]
        simp
      · rw [if_neg hsq]
        simp
    · rw [if_neg hrect]
      simp
  · intro rchar rows
    rw [CPM_init, if_neg hml]
    by_cases hc2 : rchar = 2
    · rw [if_pos hc2]
      by_cases hsq : rows.length = (rows.headD []).length
      · rw [if_pos hsq]
        simp [hc2]
      · rw [if_neg hsq]
        simp [hc2]
    · rw [if_neg hc2]
      simp [hc2]

/-- C8 witness: the amended statement applied to an array with entry `5` and
to a matrix over a base ring of characteristic `0` (the integers). -/
theorem init_invalid_field_witness :
    CPM_init 3 (.arr [[5]]) ≠ .error .InvalidField
      ∧ (CPM_init 3 (.mat 0 [[1]]) = .error .InvalidField ↔ (0 : ℕ) ≠ 2) := by
  obtain ⟨h1, h2⟩ := init_invalid_field 3 (by decide)
  exact ⟨h1 [[5]], h2 0 [[1]]⟩

/-- C8 counterexample: `CPM(1, [[2]])` succeeds — the entry `2` is neither 0
nor 1, yet no `InvalidField` error is raised: the nested array is coerced into
GF(2), storing `[[0]]`. -/
theorem init_counterexample :
    CPM_init 1 (.arr [[2]]) = .ok (1, [[0]]) ∧ ¬ ((2 : Int) = 0 ∨ (2 : Int) = 1) := by
  decide

end CyPM
